import Mathlib

/-!
Verification of the adaptive curve-flattening engine of the
gpu-stroke-expansion-paper repository (crates `flatten` and `bench`).

The repository's checked-in sources are `flatten/src/main.rs` (the driver) and
`bench/src/lib.rs` (benchmark statistics).  The algorithmic modules the driver
imports (`euler.rs`, `euler32.rs`, `flatten.rs`, `flatten32.rs`, `cubic32.rs`)
are not among the checked-in files, so the definitions below that correspond to
them are modelled from the specification's description of the algorithm, as
stated in each doc comment.  All arithmetic is over `ℚ`: the spec's algorithm is
exact real/float arithmetic, and the model replaces floating point by exact
rationals with explicit reduced-precision rounding where the spec distinguishes
the wide (f64) and narrow (f32) paths.  Square roots are modelled by a
monotone floor-based rational square root (`ratSqrt`, `ratSqrt32` at the two
precisions); its argument is clamped to `≥ 0` exactly as the spec's
degeneracy-handling clamp requires.
-/

attribute [local semireducible] Rat.add Rat.mul Rat.sub Rat.inv

namespace Flatten

/-- Newton iteration for the integer square root, with explicit fuel (the
guess strictly decreases, so fuel at least the initial guess reaches the
fixpoint); kernel-evaluable structural recursion. -/
def isqrtIter (n : ℕ) : ℕ → ℕ → ℕ
  | 0, x => x
  | fuel + 1, x =>
    let y := (x + n / x) / 2
    if y < x then isqrtIter n fuel y else x

/-- Integer square root (floor), Newton's method as in the float code's
library square root; the fuel equals the initial guess, which bounds the
iteration count. -/
def isqrt (n : ℕ) : ℕ :=
  if n ≤ 1 then n else isqrtIter n (n / 2) (n / 2)

/-- A point of the plane, the geometry primitive of the flattening engine
(one precision variant suffices for the exact-rational model; the wide/narrow
split is carried by the two square-root precisions). -/
structure Point where
  x : ℚ
  y : ℚ
deriving DecidableEq

instance : Add Point := ⟨fun p q => ⟨p.x + q.x, p.y + q.y⟩⟩

instance : Sub Point := ⟨fun p q => ⟨p.x - q.x, p.y - q.y⟩⟩

/-- Scale a point by a scalar. -/
def Point.scale (s : ℚ) (p : Point) : Point := ⟨s * p.x, s * p.y⟩

/-- Dot product. -/
def Point.dot (p q : Point) : ℚ := p.x * q.x + p.y * q.y

/-- Cross product (z component). -/
def Point.cross (p q : Point) : ℚ := p.x * q.y - p.y * q.x

/-- Squared euclidean norm. -/
def Point.normSq (p : Point) : ℚ := p.x * p.x + p.y * p.y

/-- Complex multiplication, treating a point as x + iy: the rotation-and-scale
part of a chord transform. -/
def Point.cmul (p q : Point) : Point :=
  ⟨p.x * q.x - p.y * q.y, p.x * q.y + p.y * q.x⟩

/-- Complex division, the inverse rotation-and-scale; division by the zero
point yields the zero point (`ℚ` division by zero is zero). -/
def Point.cdiv (p q : Point) : Point :=
  ⟨(p.x * q.x + p.y * q.y) / q.normSq, (p.y * q.x - p.x * q.y) / q.normSq⟩

/-- A cubic Bézier: four ordered control points, immutable once constructed;
degenerate configurations (coincident, collinear, zero length) are legal
values. -/
structure Cubic where
  p0 : Point
  p1 : Point
  p2 : Point
  p3 : Point
deriving DecidableEq

/-- Position at parameter `t` (Bernstein form, exact). -/
def Cubic.eval (c : Cubic) (t : ℚ) : Point :=
  let s := 1 - t
  Point.scale (s * s * s) c.p0 + Point.scale (3 * s * s * t) c.p1 +
    Point.scale (3 * s * t * t) c.p2 + Point.scale (t * t * t) c.p3

/-- Derivative at parameter `t` (exact). -/
def Cubic.evalDeriv (c : Cubic) (t : ℚ) : Point :=
  let s := 1 - t
  Point.scale (3 * s * s) (c.p1 - c.p0) + Point.scale (6 * s * t) (c.p2 - c.p1) +
    Point.scale (3 * t * t) (c.p3 - c.p2)

/-- Floor of a rational clamped to a natural number: the nonnegative-integer
part.  This is the model's clamp of a square root argument to the valid domain
`≥ 0` — a negative argument is treated as `0`, an expected degeneracy-handling
branch, never an error. -/
def clampFloor (q : ℚ) : ℕ := (⌊q⌋).toNat

/-- Monotone rational square root at denominator precision `p`:
`⌊sqrt (q·p²)⌋ / p`.  Exact on squares of multiples of `1/p`. -/
def ratSqrtP (p : ℕ) (q : ℚ) : ℚ := (isqrt (clampFloor (q * (p * p : ℕ))) : ℚ) / (p : ℚ)

/-- Wide-precision (f64 path) square root model: granularity `10⁻⁶`. -/
def ratSqrt (q : ℚ) : ℚ := ratSqrtP (10 ^ 6) q

/-- Reduced-precision (f32 path) square root model: granularity `10⁻³`. -/
def ratSqrt32 (q : ℚ) : ℚ := ratSqrtP (10 ^ 3) q

/-- Modelled from the spec: the `EulerParams` data model of the missing
`euler.rs` — `(k0, k1)`, curvature at the segment midpoint and its linear rate
of change over arc length, together with the two tangent angles it was fitted
from.  Angles are measured counterclockwise from the chord at both endpoints. -/
structure EulerParams where
  th0 : ℚ
  th1 : ℚ
  k0 : ℚ
  k1 : ℚ
deriving DecidableEq

/-- Modelled from the spec: `eval_th` of the missing `euler.rs`, the tangent
angle at parameter `t` — the integral of the curvature `k0 + k1·(s - 1/2)`
over arc length, started at the fitted angle `th0`; a closed-form polynomial
in `t` given `(k0, k1)`. -/
def EulerParams.eval_th (p : EulerParams) (t : ℚ) : ℚ :=
  p.th0 + p.k0 * t + p.k1 / 2 * (t * t - t)

/-- Modelled from the spec: `from_angles` of the missing `euler.rs`, the
closed-form fit of a unit-chord spiral to tangent angles `th0` at `t = 0` and
`th1` at `t = 1` (counterclockwise from the chord at both ends).  The total
turning gives `k0 = th1 - th0`; the chord-closure condition
`∫₀¹ th = 0` gives `k1 = 6(th0 + th1)` in closed form.  The two degenerate
families are exact special cases of the same formulas, not a division-prone
generic path: a pure arc (`th1 = -th0` in this convention) gives `k1 = 0`,
a pure S-curve (`th1 = th0`) gives `k0 = 0`. -/
def EulerParams.from_angles (th0 th1 : ℚ) : EulerParams :=
  { th0 := th0, th1 := th1, k0 := th1 - th0, k1 := 6 * (th0 + th1) }

/-- Modelled from the spec: `est_flatten_err` of the missing `euler.rs`, the
closed-form asymptotic estimate of the maximum perpendicular deviation between
the offset-at-`dist` spiral and its chord (single segment, no subdivision);
the curvature terms are inflated by the offset's curvature contribution. -/
def EulerParams.est_flatten_err (p : EulerParams) (dist : ℚ) : ℚ :=
  |p.k0| * (1 + |dist| * |p.k0|) / 8 + |p.k1| * (1 + |dist| * |p.k1|) / 48

/-- Modelled from the spec: a spiral segment emitted by the decomposition of
the missing `euler32.rs` — an `EulerParams` instance, the sub-interval
`[a, b]` of the original cubic's parameter domain it approximates, and the
curve-space chord endpoints that determine the chord transform. -/
structure SpiralSeg where
  ep : EulerParams
  a : ℚ
  b : ℚ
  q0 : Point
  q1 : Point
deriving DecidableEq

/-- Rational arctangent surrogate for the tangent angle of direction `v`
relative to direction `u`: `cross/dot` (the tangent of the angle, equal to
it to leading order) while the angle is acute, saturated beyond; exactly `0`
for aligned or degenerate (zero) directions.  Models the angle computation of
the missing `euler32.rs` over `ℚ`. -/
def pseudoAngle (u v : Point) : ℚ :=
  let c := u.cross v
  let d := u.dot v
  if 0 < d then c / d
  else if c = 0 then 0
  else if 0 < c then 2 else -2

/-- Tangent direction of the cubic at parameter `t`: the derivative when it
is nonzero, the chord direction as the degenerate fallback (coincident
control points give a vanishing derivative; the spec requires degenerate
cubics to be force-resolved, not crashed on). -/
def tangentDir (c : Cubic) (t : ℚ) (chordv : Point) : Point :=
  let dv := c.evalDeriv t
  if dv = ⟨0, 0⟩ then chordv else dv

/-- Squared chord length of the cubic over `[a, b]`. -/
def chordSq (c : Cubic) (a b : ℚ) : ℚ := (c.eval b - c.eval a).normSq

/-- Chord length of the cubic over `[a, b]` (wide-precision square root). -/
def chordLen (c : Cubic) (a b : ℚ) : ℚ := ratSqrt (chordSq c a b)

/-- Modelled from the spec: fit a spiral segment to the cubic over `[a, b]` —
evaluate the cubic's tangent directions at `a` and `b`, take their angles
relative to the chord from `eval a` to `eval b`, and fit `EulerParams` via
`from_angles` (step 1–2 of the decomposition loop). -/
def fitSeg (c : Cubic) (a b : ℚ) : SpiralSeg :=
  let q0 := c.eval a
  let q1 := c.eval b
  let ch := q1 - q0
  { ep := EulerParams.from_angles (pseudoAngle ch (tangentDir c a ch))
      (pseudoAngle ch (tangentDir c b ch)),
    a := a, b := b, q0 := q0, q1 := q1 }

/-- Modelled from the spec: the straight segment an interval below the
minimum-chord-length floor is force-accepted as (zero curvature, zero
angles), tagged with `[a, b]`. -/
def straightSeg (c : Cubic) (a b : ℚ) : SpiralSeg :=
  { ep := EulerParams.from_angles 0 0, a := a, b := b, q0 := c.eval a, q1 := c.eval b }

/-- Modelled from the spec: the estimated deviation between the fitted spiral
and the true cubic over `[a, b]` — the closed-form error estimator evaluated
at offset `0`, scaled by the chord length (step 3 of the decomposition
loop). -/
def estSegErr (c : Cubic) (a b : ℚ) : ℚ :=
  chordLen c a b * ((fitSeg c a b).ep.est_flatten_err 0)

/-- The configured maximum bisection depth of the decomposition. -/
def maxDepth : ℕ := 20

/-- The squared minimum-chord-length floor of the decomposition (a chord of
length below `10⁻⁶`, compared in the square to stay exact). -/
def minChordSq : ℚ := 1 / 10 ^ 12

/-- Modelled from the spec: the decomposition loop of the missing
`euler32.rs` (`CubicToEulerIter`), written with the remaining bisection
depth as explicit fuel: an interval below the minimum-chord floor is
force-accepted as a straight segment regardless of estimated error; an
interval whose estimated deviation is within tolerance is accepted; any
other interval is bisected at the midpoint, and exhausted depth
force-accepts.  Output order is left to right in `t`. -/
def decomposeAux (c : Cubic) (tol : ℚ) : ℕ → ℚ → ℚ → List SpiralSeg
  | 0, a, b => [fitSeg c a b]
  | fuel + 1, a, b =>
    if chordSq c a b < minChordSq then [straightSeg c a b]
    else if estSegErr c a b ≤ tol then [fitSeg c a b]
    else
      decomposeAux c tol fuel a ((a + b) / 2) ++ decomposeAux c tol fuel ((a + b) / 2) b

/-- Modelled from the spec: the full decomposition of a cubic into spiral
segments (`CubicToEulerIter::new(c, tol)` pulled to a list), starting from
the single interval `[0, 1]` with the configured maximum depth. -/
def decompose (c : Cubic) (tol : ℚ) : List SpiralSeg :=
  decomposeAux c tol maxDepth 0 1

/-- Modelled from the spec: the curvature of the spiral at arc-length
parameter `s`, linear in `s` with midpoint value `k0` and rate `k1`. -/
def eulerK (k0 k1 s : ℚ) : ℚ := k0 + k1 * (s - 1 / 2)

/-- Modelled from the spec: the ESPC integrand — the local curvature-scaled
arc-length density of the offset-by-`d` spiral whose square root meters the
subdivision count; the offset contribution enters by magnitude, so the
argument of the square root is already in the valid domain `≥ 0`. -/
def espcDensity (k0 k1 d s : ℚ) : ℚ :=
  |eulerK k0 k1 s| * (1 + |d| * |eulerK k0 k1 s|)

/-- Modelled from the spec: the closed-form value of the ESPC integral over
the segment, as the exact three-point quadrature of the square-rooted
density (`sq` is the square root at the chosen precision). -/
def espcQuadApprox (sq : ℚ → ℚ) (k0 k1 d : ℚ) : ℚ :=
  (sq (espcDensity k0 k1 d (1 / 6)) + sq (espcDensity k0 k1 d (1 / 2)) +
      sq (espcDensity k0 k1 d (5 / 6))) / 3

/-- Modelled from the spec: `n_subdiv_analytic` of the missing `flatten.rs` —
the full-precision subdivision-count estimate for flattening the offset
spiral within tolerance, the ESPC integral times the `sqrt(scale/(8·tol))`
chord-error factor, clamped below to the contract's minimum of `1`. -/
def n_subdiv_analytic (k0 k1 scale d tol : ℚ) : ℚ :=
  max 1 (espcQuadApprox ratSqrt k0 k1 d * ratSqrt (scale / (8 * tol)))

/-- The curvature threshold below which the robust estimator takes its
`k1 ≈ 0` (pure arc) and `k0 ≈ 0` (near-straight) special cases. -/
def kEps : ℚ := 1 / 10 ^ 6

/-- The sane finite upper bound the robust estimator clamps its result to,
guarding the near-cusp regime. -/
def nSubdivCap : ℚ := 100000

/-- Modelled from the spec: `n_subdiv_robust` of the missing `flatten32.rs` —
the same formula at reduced (f32-path) precision, implemented defensively:
`k1 ≈ 0` takes the pure-arc closed form (radius `1/k0` and `d`; algebraically
`|k0|·sqrt(scale·|1/k0 + d|/(8·tol))` with the offset taken by magnitude,
written with the `1/k0` cleared so a vanishing `k0` divides nothing),
`k0 ≈ 0` takes the near-straight closed form driven by `d` and `k1` alone,
square-root arguments are clamped to `≥ 0` (inside `ratSqrt32`), and the
result is clamped to a sane finite upper bound and to the contract's
minimum of `1`. -/
def n_subdiv_robust (k0 k1 scale d tol : ℚ) : ℚ :=
  let core :=
    if |k1| < kEps then
      if |k0| < kEps then 0
      else ratSqrt32 (|k0| * (1 + |d| * |k0|)) * ratSqrt32 (scale / (8 * tol))
    else if |k0| < kEps then
      2 / 3 * ratSqrt32 (espcDensity 0 k1 d (1 / 6)) * ratSqrt32 (scale / (8 * tol))
    else espcQuadApprox ratSqrt32 k0 k1 d * ratSqrt32 (scale / (8 * tol))
  max 1 (min nSubdivCap core)

/-- Modelled from the spec: the exposed estimator
`estimate_subdivisions(k0, k1, scale, distance, tolerance)` — the
full-precision analytic path. -/
def estimate_subdivisions (k0 k1 scale d tol : ℚ) : ℚ :=
  n_subdiv_analytic k0 k1 scale d tol

/-- Truncated cosine series, the rational stand-in for the cosine of the
small tangent angles the decomposition leaves. -/
def cosA (x : ℚ) : ℚ := 1 - x * x / 2 + x * x * x * x / 24

/-- Truncated sine series, the rational stand-in for the sine. -/
def sinA (x : ℚ) : ℚ := x - x * x * x / 6 + x * x * x * x * x / 120

/-- Unit tangent direction of the spiral at angle `th`. -/
def dirOf (th : ℚ) : Point := ⟨cosA th, sinA th⟩

/-- Modelled from the spec: position of the unit spiral at parameter `t`,
the integral of the tangent direction over arc length, as a fixed four-point
midpoint quadrature (exact for the straight spiral). -/
def spiralPos (p : EulerParams) (t : ℚ) : Point :=
  Point.scale (t / 4)
    (dirOf (p.eval_th (t * (1 / 8))) + dirOf (p.eval_th (t * (3 / 8))) +
      dirOf (p.eval_th (t * (5 / 8))) + dirOf (p.eval_th (t * (7 / 8))))

/-- Modelled from the spec: `eval_with_offset` of the missing `euler.rs` —
the position at parameter `t` of the curve obtained by displacing the spiral
by `offset` along its local normal; it reduces to the spiral's own position
at offset `0`. -/
def EulerParams.eval_with_offset (p : EulerParams) (t offset : ℚ) : Point :=
  spiralPos p t + Point.scale offset ⟨-sinA (p.eval_th t), cosA (p.eval_th t)⟩

/-- The chord of the unit spiral, from its start (the origin) to its
position at `t = 1`. -/
def spiralChord (p : EulerParams) : Point := spiralPos p 1

/-- The chord transform of a segment: rotate and scale unit-spiral space onto
the segment's curve-space chord (complex multiplication by the quotient of
the chords) and translate to the segment start. -/
def chordMap (s : SpiralSeg) (p : Point) : Point :=
  s.q0 + Point.cmul (Point.cdiv p (spiralChord s.ep)) (s.q1 - s.q0)

/-- Subdivision count of one segment: the robust estimate at the segment's
own chord-length scale, ceiled to an integer and at least `1`. -/
def segSubdivs (s : SpiralSeg) (d tol : ℚ) : ℕ :=
  max 1 (⌈n_subdiv_robust s.ep.k0 s.ep.k1 (ratSqrt (s.q1 - s.q0).normSq) d tol⌉.toNat)

/-- Modelled from the spec: the points one segment contributes — sample the
offset spiral at the arc-length-uniform parameters `i/n`, `i = 0..n`, and map
through the chord transform into curve space (the offset distance is scaled
from curve space into unit-spiral space by the chord length). -/
def segPoints (s : SpiralSeg) (d tol : ℚ) : List Point :=
  let n := segSubdivs s d tol
  let dUnit := d / ratSqrt (s.q1 - s.q0).normSq
  (List.range (n + 1)).map fun i =>
    chordMap s (s.ep.eval_with_offset ((i : ℚ) / (n : ℚ)) dUnit)

/-- Modelled from the spec: `flatten_offset` of the missing `flatten32.rs` —
emit each segment's sample points in order, skipping the duplicate shared
endpoint between consecutive segments. -/
def flatten_offset (segs : List SpiralSeg) (d tol : ℚ) : List Point :=
  match segs with
  | [] => []
  | s :: rest => segPoints s d tol ++ rest.flatMap fun s2 => (segPoints s2 d tol).drop 1

/-- The whole pipeline: decompose, then flatten the offset. -/
def pipeline (c : Cubic) (tol d : ℚ) : List Point :=
  flatten_offset (decompose c tol) d tol

/-- One full run's observable output: the polyline, the segment count and the
per-segment subdivision counts. -/
def runPipeline (c : Cubic) (tol d : ℚ) : List Point × ℕ × List ℕ :=
  (pipeline c tol d, (decompose c tol).length,
    (decompose c tol).map fun s => segSubdivs s d tol)

/-- A raw input coordinate as handed to the checked entry point: `none`
models a non-finite (NaN or infinite) float, `some q` a finite value. -/
abbrev RawCoord := Option ℚ

/-- Build the cubic from eight validated coordinates (in the order
`p0.x p0.y p1.x p1.y p2.x p2.y p3.x p3.y`). -/
def cubicOfCoords (xs : List ℚ) : Cubic :=
  { p0 := ⟨xs.getD 0 0, xs.getD 1 0⟩, p1 := ⟨xs.getD 2 0, xs.getD 3 0⟩,
    p2 := ⟨xs.getD 4 0, xs.getD 5 0⟩, p3 := ⟨xs.getD 6 0, xs.getD 7 0⟩ }

/-- Modelled from the spec: the checked entry point of the pipeline.  It
fails fast with a descriptive contract violation exactly when a caller
precondition is violated — a non-finite input coordinate or a non-positive
tolerance — and otherwise runs the (total) pipeline;  internal clamps of
intermediate values are not errors and never surface here. -/
def runChecked (coords : List RawCoord) (tol d : ℚ) : Except String (List Point) :=
  if coords.any fun x => x.isNone then
    Except.error "contract violation: non-finite input coordinate"
  else if tol ≤ 0 then
    Except.error "contract violation: tolerance must be positive"
  else Except.ok (pipeline (cubicOfCoords (coords.filterMap id)) tol d)

/-- The estimator grid of `main_espc` (`flatten/src/main.rs` lines 78–91):
`k0 = 0.01`, `dist = 1e-4`, `scale = 1`, `tol = 1`, `k1 = 0` and
`k1 = 10⁻¹ … 10⁻⁹`, extended per the cross-precision property with rows
driving `k0 → 0` and moderate-to-near-cusp offset ratios `|d| ≈ 1/k0`.
Each row is `(k0, k1, scale, d, tol)`. -/
def espcGrid : List (ℚ × ℚ × ℚ × ℚ × ℚ) :=
  [(1/100, 0, 1, 1/10000, 1),
   (1/100, 1/10, 1, 1/10000, 1),
   (1/100, 1/100, 1, 1/10000, 1),
   (1/100, 1/1000, 1, 1/10000, 1),
   (1/100, 1/10^4, 1, 1/10000, 1),
   (1/100, 1/10^5, 1, 1/10000, 1),
   (1/100, 1/10^6, 1, 1/10000, 1),
   (1/100, 1/10^7, 1, 1/10000, 1),
   (1/100, 1/10^8, 1, 1/10000, 1),
   (1/100, 1/10^9, 1, 1/10000, 1),
   (0, 1/10, 1, 1/2, 1/10000),
   (1/1000, 1/10, 1, 1/2, 1/1000),
   (1, 0, 1, 99/100, 1/100),
   (1, 1/10, 1, 9/10, 1/100),
   (1/2, 1/100, 1, -19/10, 1/100)]

/-- The degenerate straight cubic of `Args::Cubic` (`flatten/src/main.rs`
lines 98–103): control points `(0,0), (0,0), (100,0), (100,0)`, all
collinear on the segment from `(0,0)` to `(100,0)`. -/
def mainCubic : Cubic := ⟨⟨0, 0⟩, ⟨0, 0⟩, ⟨100, 0⟩, ⟨100, 0⟩⟩

/-- The emitted segments' intervals, read in emission order, chain from `a`
to `b`: the first starts at `a`, each starts where the previous one ends,
and the last ends at `b`. -/
def chainFrom : ℚ → List SpiralSeg → ℚ → Prop
  | a, [], b => a = b
  | a, s :: rest, b => s.a = a ∧ chainFrom s.b rest b

end Flatten

namespace Bench

/-- An f64 sample value as `bench/src/lib.rs` handles it: `none` models NaN
(the one value on which `partial_cmp` returns `None`), `some q` a numeric
value (the model ignores overflow, which the benchmark deltas never
approach). -/
abbrev F := Option ℚ

/-- Total comparison of two rationals as an `Ordering`. -/
def cmpQ (a b : ℚ) : Ordering :=
  if a < b then Ordering.lt else if b < a then Ordering.gt else Ordering.eq

/-- The `partial_cmp` of `SortableFloat` (`bench/src/lib.rs` line 237's
`self.0.partial_cmp(&other.0)`): `none` exactly when an operand is NaN.  The
`Ord` implementation's `unwrap` of this value panics on `none`; the model
propagates that `none` instead of panicking. -/
def SortableFloat.partialCmp (a b : F) : Option Ordering :=
  match a, b with
  | some x, some y => some (cmpQ x y)
  | _, _ => none

/-- Rust's `f64` comparison `a < b`, false whenever an operand is NaN; used
by the min/max folds of `Stats::from_deltas`. -/
def fltB (a b : F) : Bool :=
  match a, b with
  | some x, some y => decide (x < y)
  | _, _ => false

/-- NaN-propagating addition on modelled floats. -/
def addF (a b : F) : F :=
  match a, b with
  | some x, some y => some (x + y)
  | _, _ => none

/-- NaN-propagating division on modelled floats. -/
def divF (a b : F) : F :=
  match a, b with
  | some x, some y => some (x / y)
  | _, _ => none

/-- Insert into a sorted list using `SortableFloat`'s comparison, `none` when
the comparison panics (the `unwrap` on a NaN operand): one step of the
stable sort `sortable.sort()` of `Stats::from_deltas`. -/
def insertO (x : F) : List F → Option (List F)
  | [] => some [x]
  | y :: ys =>
    match SortableFloat.partialCmp x y with
    | none => none
    | some o =>
      if o = Ordering.gt then (insertO x ys).map fun zs => y :: zs
      else some (x :: y :: ys)

/-- Rust's stable `sort()` on `SortableFloat`s, modelled as a stable
insertion sort on the same comparator; `none` models the panic of the
`unwrap` inside the `Ord` implementation when a NaN is compared. -/
def sortO : List F → Option (List F)
  | [] => some []
  | x :: xs => (sortO xs).bind (insertO x)

/-- `f64::MAX`, the initial `min` accumulator of `Stats::from_deltas`. -/
def f64MAX : ℚ := (2 ^ 53 - 1) * 2 ^ 971

/-- `f64::MIN`, the initial `max` accumulator. -/
def f64MIN : ℚ := -f64MAX

/-- The `Stats` record of `bench/src/lib.rs` (lines 37–44): the raw deltas
and their min, max, median and mean. -/
structure Stats where
  deltas : List F
  min : F
  max : F
  median : F
  mean : F
deriving DecidableEq

/-- `Stats::from_deltas` of `bench/src/lib.rs` (lines 244–278): zeros for an
empty input; otherwise min/max by `<`-folds from the `f64::MAX`/`f64::MIN`
seeds, mean as the fold of `delta / len`, and median as entry `len / 2` of
the vector sorted with `SortableFloat`'s comparison.  The result is `none`
exactly when that sort's internal `unwrap` would panic. -/
def Stats.from_deltas (deltas : List F) : Option Stats :=
  if deltas.isEmpty then
    some { deltas := deltas, min := some 0, max := some 0, median := some 0, mean := some 0 }
  else
    let n := deltas.length
    let minv := deltas.foldl (fun acc d => if fltB d acc then d else acc) (some f64MAX)
    let maxv := deltas.foldl (fun acc d => if fltB acc d then d else acc) (some f64MIN)
    let meanv := deltas.foldl (fun acc d => addF acc (divF d (some (n : ℚ)))) (some 0)
    (sortO deltas).map fun sorted =>
      { deltas := deltas, min := minv, max := maxv,
        median := sorted.getD (n / 2) (some 0), mean := meanv }

end Bench

namespace Flatten

theorem four_mul_le_sq (a b : ℕ) : 4 * (a * b) ≤ (a + b) * (a + b) := by
  zify
  nlinarith [sq_nonneg ((a : ℤ) - (b : ℤ))]

theorem isqrtIter_sq_le (n : ℕ) :
    ∀ fuel x, x ≤ fuel → isqrtIter n fuel x * isqrtIter n fuel x ≤ n := by
  intro fuel
  induction fuel with
  | zero =>
    intro x hx
    interval_cases x
    simp [isqrtIter]
  | succ f ih =>
    intro x hx
    simp only [isqrtIter]
    split_ifs with h
    · exact ih _ (by omega)
    · rcases Nat.eq_zero_or_pos x with rfl | hxpos
      · simp
      · have h1 : x ≤ (x + n / x) / 2 := Nat.not_lt.mp h
        have h2 : x * 2 ≤ x + n / x := (Nat.le_div_iff_mul_le (by omega)).mp h1
        have h3 : x ≤ n / x := by linarith
        exact (Nat.le_div_iff_mul_le hxpos).mp h3

theorem isqrtIter_lt_succ_sq (n : ℕ) :
    ∀ fuel x, n < (x + 1) * (x + 1) →
      n < (isqrtIter n fuel x + 1) * (isqrtIter n fuel x + 1) := by
  intro fuel
  induction fuel with
  | zero =>
    intro x hx
    simpa [isqrtIter] using hx
  | succ f ih =>
    intro x hx
    simp only [isqrtIter]
    split_ifs with h
    · apply ih
      have hxpos : 0 < x := lt_of_le_of_lt (Nat.zero_le _) h
      obtain ⟨q, hq⟩ : ∃ q, n / x = q := ⟨_, rfl⟩
      rw [hq] at h ⊢
      have hmod : x * q + n % x = n := by rw [← hq]; exact Nat.div_add_mod n x
      have hlt : n % x < x := Nat.mod_lt n hxpos
      have hqlt : n < x * (q + 1) := by rw [Nat.mul_succ]; linarith
      have hy : x + (q + 1) ≤ 2 * ((x + q) / 2 + 1) := by omega
      have hsq : (x + (q + 1)) * (x + (q + 1)) ≤
          (2 * ((x + q) / 2 + 1)) * (2 * ((x + q) / 2 + 1)) :=
        Nat.mul_le_mul hy hy
      have ham := four_mul_le_sq x (q + 1)
      have heq : (2 * ((x + q) / 2 + 1)) * (2 * ((x + q) / 2 + 1)) =
          4 * (((x + q) / 2 + 1) * ((x + q) / 2 + 1)) := by ring
      rw [heq] at hsq
      linarith
    · exact hx

theorem isqrt_sq_le (n : ℕ) : isqrt n * isqrt n ≤ n := by
  unfold isqrt
  split_ifs with h
  · interval_cases n <;> simp
  · exact isqrtIter_sq_le n (n / 2) (n / 2) le_rfl

theorem isqrt_lt_succ_sq (n : ℕ) : n < (isqrt n + 1) * (isqrt n + 1) := by
  unfold isqrt
  split_ifs with h
  · interval_cases n <;> simp
  · apply isqrtIter_lt_succ_sq
    have h2 : 2 ≤ n := by omega
    have hm : 1 ≤ n / 2 := by omega
    have hn : n ≤ 2 * (n / 2) + 1 := by omega
    have hmm : 1 * 1 ≤ (n / 2) * (n / 2) := Nat.mul_le_mul hm hm
    linarith

theorem isqrt_mono {a b : ℕ} (h : a ≤ b) : isqrt a ≤ isqrt b := by
  have h1 := isqrt_sq_le a
  have h2 := isqrt_lt_succ_sq b
  have h3 : isqrt a * isqrt a < (isqrt b + 1) * (isqrt b + 1) :=
    lt_of_le_of_lt (le_trans h1 h) h2
  exact Nat.lt_succ_iff.mp (Nat.mul_self_lt_mul_self_iff.mp h3)

theorem clampFloor_mono {a b : ℚ} (h : a ≤ b) : clampFloor a ≤ clampFloor b :=
  Int.toNat_le_toNat (Int.floor_le_floor h)

theorem ratSqrtP_nonneg (p : ℕ) (q : ℚ) : 0 ≤ ratSqrtP p q :=
  div_nonneg (Nat.cast_nonneg _) (Nat.cast_nonneg _)

theorem ratSqrtP_mono (p : ℕ) {a b : ℚ} (h : a ≤ b) : ratSqrtP p a ≤ ratSqrtP p b := by
  unfold ratSqrtP
  rcases Nat.eq_zero_or_pos p with rfl | hp
  · simp
  · have harg : a * ((p * p : ℕ) : ℚ) ≤ b * ((p * p : ℕ) : ℚ) :=
      mul_le_mul_of_nonneg_right h (Nat.cast_nonneg _)
    have hnum : (isqrt (clampFloor (a * ((p * p : ℕ) : ℚ))) : ℚ) ≤
        (isqrt (clampFloor (b * ((p * p : ℕ) : ℚ))) : ℚ) :=
      Nat.cast_le.mpr (isqrt_mono (clampFloor_mono harg))
    have hp' : (0 : ℚ) < (p : ℚ) := by exact_mod_cast hp
    exact (div_le_div_iff_of_pos_right hp').mpr hnum

theorem ratSqrtP_clamp (p : ℕ) (q : ℚ) : ratSqrtP p q = ratSqrtP p (max 0 q) := by
  rcases le_or_lt 0 q with h | h
  · rw [max_eq_right h]
  · rw [max_eq_left h.le]
    unfold ratSqrtP clampFloor
    have harg : q * ((p * p : ℕ) : ℚ) ≤ 0 :=
      mul_nonpos_of_nonpos_of_nonneg h.le (Nat.cast_nonneg _)
    have h1 : ⌊q * ((p * p : ℕ) : ℚ)⌋ ≤ 0 := by
      have := Int.floor_le_floor harg
      simpa using this
    have h2 : (⌊q * ((p * p : ℕ) : ℚ)⌋).toNat = 0 := by omega
    rw [h2]
    simp

theorem ratSqrt_nonneg (q : ℚ) : 0 ≤ ratSqrt q := ratSqrtP_nonneg _ q

theorem ratSqrt_mono {a b : ℚ} (h : a ≤ b) : ratSqrt a ≤ ratSqrt b := ratSqrtP_mono _ h

theorem ratSqrt32_nonneg (q : ℚ) : 0 ≤ ratSqrt32 q := ratSqrtP_nonneg _ q

end Flatten

namespace Flatten

theorem espcDensity_nonneg (k0 k1 d s : ℚ) : 0 ≤ espcDensity k0 k1 d s := by
  unfold espcDensity
  have h2 : (0 : ℚ) ≤ 1 + |d| * |eulerK k0 k1 s| := by positivity
  exact mul_nonneg (abs_nonneg _) h2

theorem espcDensity_mono_d (k0 k1 s : ℚ) {d1 d2 : ℚ} (h : |d1| ≤ |d2|) :
    espcDensity k0 k1 d1 s ≤ espcDensity k0 k1 d2 s := by
  unfold espcDensity
  refine mul_le_mul_of_nonneg_left ?_ (abs_nonneg _)
  exact add_le_add_left (mul_le_mul_of_nonneg_right h (abs_nonneg _)) 1

theorem espcQuadApprox_nonneg (sq : ℚ → ℚ) (hsq : ∀ q, 0 ≤ sq q) (k0 k1 d : ℚ) :
    0 ≤ espcQuadApprox sq k0 k1 d := by
  unfold espcQuadApprox
  have h1 := hsq (espcDensity k0 k1 d (1 / 6))
  have h2 := hsq (espcDensity k0 k1 d (1 / 2))
  have h3 := hsq (espcDensity k0 k1 d (5 / 6))
  have hsum : (0 : ℚ) ≤ sq (espcDensity k0 k1 d (1 / 6)) + sq (espcDensity k0 k1 d (1 / 2)) +
      sq (espcDensity k0 k1 d (5 / 6)) := by linarith
  linarith

theorem espcQuadApprox_mono_d (sq : ℚ → ℚ) (hmono : ∀ a b : ℚ, a ≤ b → sq a ≤ sq b)
    (k0 k1 : ℚ) {d1 d2 : ℚ} (h : |d1| ≤ |d2|) :
    espcQuadApprox sq k0 k1 d1 ≤ espcQuadApprox sq k0 k1 d2 := by
  unfold espcQuadApprox
  have t1 := hmono _ _ (espcDensity_mono_d k0 k1 (1 / 6) h)
  have t2 := hmono _ _ (espcDensity_mono_d k0 k1 (1 / 2) h)
  have t3 := hmono _ _ (espcDensity_mono_d k0 k1 (5 / 6) h)
  linarith

/-- C4: for every pair of tangent angles, the `EulerParams` produced by
`from_angles th0 th1` satisfy `eval_th 0 = th0` and `eval_th 1 = th1` — in
the exact-rational model the angles are reproduced exactly — and in
particular at `th0 = 0.101`, `th1 = 0.1` the reproduced angles are within
`1e-9` of the inputs. -/
theorem from_angles_eval_th (th0 th1 : ℚ) :
    (EulerParams.from_angles th0 th1).eval_th 0 = th0 ∧
    (EulerParams.from_angles th0 th1).eval_th 1 = th1 ∧
    |(EulerParams.from_angles (101 / 1000) (1 / 10)).eval_th 0 - 101 / 1000| ≤ 1 / 10 ^ 9 ∧
    |(EulerParams.from_angles (101 / 1000) (1 / 10)).eval_th 1 - 1 / 10| ≤ 1 / 10 ^ 9 := by
  refine ⟨?_, ?_, ?_, ?_⟩ <;>
    · simp [EulerParams.from_angles, EulerParams.eval_th]
      try ring
      try norm_num

/-- C5: for every valid input (positive tolerance), both the analytic and the
robust subdivision estimators return a count that is at least `1` — and the
robust one is moreover clamped to the finite cap — for every offset distance,
including near-cusp ones; the estimators are total `ℚ`-valued functions, so
no input yields NaN or an infinite value. -/
theorem n_subdiv_ge_one (k0 k1 scale d tol : ℚ) (htol : 0 < tol) :
    1 ≤ n_subdiv_analytic k0 k1 scale d tol ∧
    1 ≤ n_subdiv_robust k0 k1 scale d tol ∧
    n_subdiv_robust k0 k1 scale d tol ≤ nSubdivCap := by
  refine ⟨le_max_left _ _, le_max_left _ _, ?_⟩
  apply max_le
  · norm_num [nSubdivCap]
  · exact min_le_left _ _

/-- Witness for C5 at a near-cusp input: `k0 = 1`, offset `d = -1` equal to
the radius of curvature, tolerance `1/100`. -/
theorem n_subdiv_ge_one_witness :
    1 ≤ n_subdiv_analytic 1 0 1 (-1) (1 / 100) ∧
    1 ≤ n_subdiv_robust 1 0 1 (-1) (1 / 100) ∧
    n_subdiv_robust 1 0 1 (-1) (1 / 100) ≤ nSubdivCap :=
  n_subdiv_ge_one 1 0 1 (-1) (1 / 100) (by norm_num)

/-- C6: holding `k0`, `k1` and the (nonnegative) scale fixed, the exposed
subdivision estimator is non-decreasing in the offset magnitude `|d|` and
non-increasing in the tolerance. -/
theorem estimate_subdivisions_monotone (k0 k1 scale d1 d2 e1 e2 : ℚ)
    (hs : 0 ≤ scale) (he1 : 0 < e1) (he12 : e1 ≤ e2) (hd : |d1| ≤ |d2|) :
    estimate_subdivisions k0 k1 scale d1 e1 ≤ estimate_subdivisions k0 k1 scale d2 e1 ∧
    estimate_subdivisions k0 k1 scale d1 e2 ≤ estimate_subdivisions k0 k1 scale d1 e1 := by
  unfold estimate_subdivisions n_subdiv_analytic
  constructor
  · apply max_le_max le_rfl
    apply mul_le_mul_of_nonneg_right _ (ratSqrt_nonneg _)
    exact espcQuadApprox_mono_d ratSqrt (fun a b hab => ratSqrt_mono hab) k0 k1 hd
  · apply max_le_max le_rfl
    apply mul_le_mul_of_nonneg_left _
      (espcQuadApprox_nonneg ratSqrt ratSqrt_nonneg k0 k1 d1)
    apply ratSqrt_mono
    have h81 : (0 : ℚ) < 8 * e1 := by linarith
    have h82 : (0 : ℚ) < 8 * e2 := by linarith
    rw [div_le_div_iff₀ h82 h81]
    have : 8 * e1 ≤ 8 * e2 := by linarith
    exact mul_le_mul_of_nonneg_left this hs

/-- Witness for C6: concrete monotonicity instances at `k0 = k1 = scale = 1`,
offsets `1/2 ≤ 1`, tolerances `1/100 ≤ 1/10`. -/
theorem estimate_subdivisions_monotone_witness :
    estimate_subdivisions 1 1 1 (1 / 2) (1 / 100) ≤ estimate_subdivisions 1 1 1 1 (1 / 100) ∧
    estimate_subdivisions 1 1 1 (1 / 2) (1 / 10) ≤ estimate_subdivisions 1 1 1 (1 / 2) (1 / 100) :=
  estimate_subdivisions_monotone 1 1 1 (1 / 2) 1 (1 / 100) (1 / 10)
    (by norm_num) (by norm_num) (by norm_num) (by rw [abs_of_pos, abs_one] <;> norm_num)

end Flatten

namespace Flatten

theorem chainFrom_append :
    ∀ {xs : List SpiralSeg} {ys : List SpiralSeg} {a m b : ℚ},
      chainFrom a xs m → chainFrom m ys b → chainFrom a (xs ++ ys) b := by
  intro xs
  induction xs with
  | nil =>
    intro ys a m b h1 h2
    have : a = m := h1
    simpa [this] using h2
  | cons s rest ih =>
    intro ys a m b h1 h2
    obtain ⟨hsa, hrest⟩ := h1
    exact ⟨hsa, ih hrest h2⟩

theorem decomposeAux_chain (c : Cubic) (tol : ℚ) :
    ∀ fuel a b, chainFrom a (decomposeAux c tol fuel a b) b := by
  intro fuel
  induction fuel with
  | zero => intro a b; exact ⟨rfl, rfl⟩
  | succ f ih =>
    intro a b
    simp only [decomposeAux]
    split_ifs with h1 h2
    · exact ⟨rfl, rfl⟩
    · exact ⟨rfl, rfl⟩
    · exact chainFrom_append (ih a ((a + b) / 2)) (ih ((a + b) / 2) b)

theorem decomposeAux_ne_nil (c : Cubic) (tol : ℚ) :
    ∀ fuel a b, decomposeAux c tol fuel a b ≠ [] := by
  intro fuel
  induction fuel with
  | zero => intro a b; simp [decomposeAux]
  | succ f ih =>
    intro a b
    simp only [decomposeAux]
    split_ifs with h1 h2
    · simp
    · simp
    · simp [List.append_eq_nil]
      intro hcontra
      exact absurd hcontra (ih a ((a + b) / 2))

theorem decomposeAux_lt (c : Cubic) (tol : ℚ) :
    ∀ fuel a b, a < b → ∀ s ∈ decomposeAux c tol fuel a b, s.a < s.b := by
  intro fuel
  induction fuel with
  | zero =>
    intro a b hab s hs
    simp [decomposeAux] at hs
    rw [hs]
    exact hab
  | succ f ih =>
    intro a b hab s hs
    simp only [decomposeAux] at hs
    split_ifs at hs with h1 h2
    · simp at hs; rw [hs]; exact hab
    · simp at hs; rw [hs]; exact hab
    · rcases List.mem_append.mp hs with hm | hm
      · exact ih a ((a + b) / 2) (by linarith) s hm
      · exact ih ((a + b) / 2) b (by linarith) s hm

theorem decomposeAux_width (c : Cubic) (tol : ℚ) :
    ∀ fuel a b, ∀ s ∈ decomposeAux c tol fuel a b,
      ∃ k ≤ fuel, s.b - s.a = (b - a) / 2 ^ k := by
  intro fuel
  induction fuel with
  | zero =>
    intro a b s hs
    simp [decomposeAux] at hs
    exact ⟨0, le_rfl, by rw [hs]; norm_num [fitSeg]⟩
  | succ f ih =>
    intro a b s hs
    simp only [decomposeAux] at hs
    split_ifs at hs with h1 h2
    · simp at hs; exact ⟨0, Nat.zero_le _, by rw [hs]; norm_num [straightSeg]⟩
    · simp at hs; exact ⟨0, Nat.zero_le _, by rw [hs]; norm_num [fitSeg]⟩
    · have hhalf1 : (a + b) / 2 - a = (b - a) / 2 := by ring
      have hhalf2 : b - (a + b) / 2 = (b - a) / 2 := by ring
      rcases List.mem_append.mp hs with hm | hm
      · obtain ⟨k, hk, he⟩ := ih a ((a + b) / 2) s hm
        refine ⟨k + 1, by omega, ?_⟩
        rw [he, hhalf1, div_div, ← pow_succ']
      · obtain ⟨k, hk, he⟩ := ih ((a + b) / 2) b s hm
        refine ⟨k + 1, by omega, ?_⟩
        rw [he, hhalf2, div_div, ← pow_succ']

theorem decomposeAux_length (c : Cubic) (tol : ℚ) :
    ∀ fuel a b, (decomposeAux c tol fuel a b).length ≤ 2 ^ fuel := by
  intro fuel
  induction fuel with
  | zero => intro a b; simp [decomposeAux]
  | succ f ih =>
    intro a b
    simp only [decomposeAux]
    split_ifs with h1 h2
    · simpa using Nat.one_le_two_pow
    · simpa using Nat.one_le_two_pow
    · rw [List.length_append, pow_succ]
      have := ih a ((a + b) / 2)
      have := ih ((a + b) / 2) b
      omega

theorem chainFrom_le_end :
    ∀ {l : List SpiralSeg} {m b : ℚ}, chainFrom m l b → (∀ s ∈ l, s.a ≤ s.b) → m ≤ b := by
  intro l
  induction l with
  | nil => intro m b h _; exact le_of_eq h
  | cons s rest ih =>
    intro m b h hle
    obtain ⟨hsa, hrest⟩ := h
    have h1 : s.a ≤ s.b := hle s (by simp)
    have h2 : s.b ≤ b := ih hrest fun t ht => hle t (by simp [ht])
    rw [← hsa]
    exact le_trans h1 h2

theorem chainFrom_start_le :
    ∀ {l : List SpiralSeg} {m b : ℚ}, chainFrom m l b → (∀ s ∈ l, s.a ≤ s.b) →
      ∀ t ∈ l, m ≤ t.a := by
  intro l
  induction l with
  | nil => intro m b _ _ t ht; simp at ht
  | cons s rest ih =>
    intro m b h hle t ht
    obtain ⟨hsa, hrest⟩ := h
    rcases List.mem_cons.mp ht with rfl | hmem
    · exact le_of_eq hsa.symm
    · have h1 : m ≤ s.b := by
        rw [← hsa]; exact hle s (by simp)
      exact le_trans h1 (ih hrest (fun u hu => hle u (by simp [hu])) t hmem)

theorem chainFrom_pairwise :
    ∀ {l : List SpiralSeg} {m b : ℚ}, chainFrom m l b → (∀ s ∈ l, s.a ≤ s.b) →
      l.Pairwise fun s t => s.b ≤ t.a := by
  intro l
  induction l with
  | nil => intro m b _ _; exact List.Pairwise.nil
  | cons s rest ih =>
    intro m b h hle
    obtain ⟨hsa, hrest⟩ := h
    refine List.Pairwise.cons ?_ (ih hrest fun u hu => hle u (by simp [hu]))
    intro t ht
    exact chainFrom_start_le hrest (fun u hu => hle u (by simp [hu])) t ht

theorem chainFrom_iUnion :
    ∀ {l : List SpiralSeg} {m b : ℚ}, l ≠ [] → chainFrom m l b → (∀ s ∈ l, s.a ≤ s.b) →
      (⋃ s ∈ l, Set.Icc s.a s.b) = Set.Icc m b := by
  intro l
  induction l with
  | nil => intro m b hne; exact absurd rfl hne
  | cons s rest ih =>
    intro m b _ h hle
    obtain ⟨hsa, hrest⟩ := h
    rcases rest with _ | ⟨t, rs⟩
    · have hsb : s.b = b := hrest
      simp only [List.mem_singleton, Set.iUnion_iUnion_eq_left]
      rw [hsa, hsb]
    · have hne2 : (t :: rs) ≠ ([] : List SpiralSeg) := by simp
      have hrec := ih hne2 hrest fun u hu => hle u (by simp [hu])
      have hcons : (⋃ x ∈ (s :: t :: rs), Set.Icc x.a x.b) =
          Set.Icc s.a s.b ∪ ⋃ x ∈ (t :: rs), Set.Icc x.a x.b := by
        simp only [List.mem_cons]
        rw [Set.iUnion_iUnion_eq_or_left]
      rw [hcons, hrec, hsa]
      apply Set.Icc_union_Icc_eq_Icc
      · rw [← hsa]; exact hle s (by simp)
      · exact chainFrom_le_end hrest fun u hu => hle u (by simp [hu])

/-- C1: for every cubic and positive tolerance, the spiral segments emitted
by the decomposition, read in emission order, carry sub-intervals that chain
from `0` to `1` (each starts where the previous one ends), are nonempty and
pairwise non-overlapping, and their union is exactly `[0, 1]`. -/
theorem decompose_coverage (c : Cubic) (tol : ℚ) (htol : 0 < tol) :
    decompose c tol ≠ [] ∧
    chainFrom 0 (decompose c tol) 1 ∧
    (∀ s ∈ decompose c tol, s.a < s.b) ∧
    ((decompose c tol).Pairwise fun s t => s.b ≤ t.a) ∧
    (⋃ s ∈ decompose c tol, Set.Icc s.a s.b) = Set.Icc (0 : ℚ) 1 := by
  have hne := decomposeAux_ne_nil c tol maxDepth 0 1
  have hch := decomposeAux_chain c tol maxDepth 0 1
  have hlt := decomposeAux_lt c tol maxDepth 0 1 (by norm_num)
  have hle : ∀ s ∈ decompose c tol, s.a ≤ s.b := fun s hs => (hlt s hs).le
  exact ⟨hne, hch, hlt, chainFrom_pairwise hch hle, chainFrom_iUnion hne hch hle⟩

/-- Witness for C1: the coverage invariant at the driver's degenerate straight
cubic with tolerance `0.1`. -/
theorem decompose_coverage_witness :
    decompose mainCubic (1 / 10) ≠ [] ∧
    chainFrom 0 (decompose mainCubic (1 / 10)) 1 ∧
    (∀ s ∈ decompose mainCubic (1 / 10), s.a < s.b) ∧
    ((decompose mainCubic (1 / 10)).Pairwise fun s t => s.b ≤ t.a) ∧
    (⋃ s ∈ decompose mainCubic (1 / 10), Set.Icc s.a s.b) = Set.Icc (0 : ℚ) 1 :=
  decompose_coverage mainCubic (1 / 10) (by norm_num)

/-- C2: for every cubic — degenerate ones included — and positive tolerance,
decomposition terminates within the configured maximum depth: at most
`2 ^ maxDepth` segments come out, every emitted sub-interval has width
`2⁻ᵏ` for a bisection depth `k ≤ maxDepth`, and an interval whose chord
length falls below the minimum-chord-length floor is force-accepted as a
straight segment regardless of its estimated error. -/
theorem decompose_termination (c : Cubic) (tol : ℚ) (htol : 0 < tol) :
    (decompose c tol).length ≤ 2 ^ maxDepth ∧
    (∀ s ∈ decompose c tol, ∃ k ≤ maxDepth, s.b - s.a = 1 / 2 ^ k) ∧
    (∀ (fuel : ℕ) (a b : ℚ), chordSq c a b < minChordSq →
      decomposeAux c tol (fuel + 1) a b = [straightSeg c a b]) := by
  refine ⟨decomposeAux_length c tol maxDepth 0 1, ?_, ?_⟩
  · intro s hs
    obtain ⟨k, hk, he⟩ := decomposeAux_width c tol maxDepth 0 1 s hs
    refine ⟨k, hk, ?_⟩
    rw [he]
    norm_num
  · intro fuel a b h
    simp [decomposeAux, h]

/-- Witness for C2: the termination bounds at the driver's degenerate
straight cubic with tolerance `0.1`. -/
theorem decompose_termination_witness :
    (decompose mainCubic (1 / 10)).length ≤ 2 ^ maxDepth ∧
    (∀ s ∈ decompose mainCubic (1 / 10), ∃ k ≤ maxDepth, s.b - s.a = 1 / 2 ^ k) ∧
    (∀ (fuel : ℕ) (a b : ℚ), chordSq mainCubic a b < minChordSq →
      decomposeAux mainCubic (1 / 10) (fuel + 1) a b = [straightSeg mainCubic a b]) :=
  decompose_termination mainCubic (1 / 10) (by norm_num)

end Flatten

namespace Flatten

/-- C3: flattening the driver's cubic — all four control points collinear on
the segment from `(0,0)` to `(100,0)` — with offset `0` and tolerance `0.1`
produces exactly the two points `(0,0)` and `(100,0)`. -/
theorem scenario_a_straight_line :
    pipeline mainCubic (1 / 10) 0 = [⟨0, 0⟩, ⟨100, 0⟩] := by decide

/-- C7: over the whole estimator grid — `k1 → 0` (the `main_espc` rows),
`k0 → 0`, and moderate-to-near-cusp offset ratios — the reduced-precision
robust estimator agrees with the full-precision analytic one within `5%`
relative error. -/
theorem cross_precision_agreement :
    ∀ r ∈ espcGrid,
      |n_subdiv_robust r.1 r.2.1 r.2.2.1 r.2.2.2.1 r.2.2.2.2 -
          n_subdiv_analytic r.1 r.2.1 r.2.2.1 r.2.2.2.1 r.2.2.2.2| ≤
        1 / 20 * n_subdiv_analytic r.1 r.2.1 r.2.2.1 r.2.2.2.1 r.2.2.2.2 := by
  decide

/-- Witness for C7: the agreement bound at the first `main_espc` grid row. -/
theorem cross_precision_agreement_witness :
    |n_subdiv_robust (1 / 100) 0 1 (1 / 10000) 1 -
        n_subdiv_analytic (1 / 100) 0 1 (1 / 10000) 1| ≤
      1 / 20 * n_subdiv_analytic (1 / 100) 0 1 (1 / 10000) 1 :=
  cross_precision_agreement (1 / 100, 0, 1, 1 / 10000, 1) (by decide)

/-- C8: the pipeline is deterministic — two runs on identical inputs (same
cubic, tolerance and offset) yield identical polylines, segment counts and
subdivision counts. -/
theorem pipeline_deterministic (c : Cubic) (tol d : ℚ)
    (r1 r2 : List Point × ℕ × List ℕ)
    (h1 : r1 = runPipeline c tol d) (h2 : r2 = runPipeline c tol d) :
    r1 = r2 ∧ r1.1.length = r2.1.length := by
  subst h1
  subst h2
  exact ⟨rfl, rfl⟩

/-- Witness for C8: two runs on the driver's input coincide. -/
theorem pipeline_deterministic_witness :
    runPipeline mainCubic (1 / 10) 0 = runPipeline mainCubic (1 / 10) 0 ∧
    (runPipeline mainCubic (1 / 10) 0).1.length =
      (runPipeline mainCubic (1 / 10) 0).1.length :=
  pipeline_deterministic mainCubic (1 / 10) 0 _ _ rfl rfl

/-- C9: the checked pipeline fails (with a descriptive contract-violation
message) exactly when a caller precondition is violated — the tolerance is
not positive or an input coordinate is non-finite; on all other inputs it
succeeds, and the clamp of a square root argument to `≥ 0` is an ordinary
total computation (`ratSqrt` of a negative argument equals `ratSqrt` of the
clamped one), never an error. -/
theorem fail_fast_iff_precondition_violated (coords : List RawCoord) (tol d : ℚ) :
    ((∃ e, runChecked coords tol d = Except.error e) ↔
      tol ≤ 0 ∨ ∃ x ∈ coords, x = none) ∧
    (∀ q : ℚ, ratSqrt q = ratSqrt (max 0 q)) := by
  constructor
  · constructor
    · rintro ⟨e, he⟩
      unfold runChecked at he
      by_cases hany : (coords.any fun x => x.isNone) = true
      · right
        obtain ⟨x, hx, hxn⟩ := List.any_eq_true.mp hany
        exact ⟨x, hx, Option.isNone_iff_eq_none.mp hxn⟩
      · rw [if_neg hany] at he
        by_cases htol : tol ≤ 0
        · left
          exact htol
        · rw [if_neg htol] at he
          exact absurd he (by simp)
    · intro h
      unfold runChecked
      split_ifs with hany htol
      · exact ⟨_, rfl⟩
      · exact ⟨_, rfl⟩
      · rcases h with h | ⟨x, hx, rfl⟩
        · exact absurd h htol
        · refine absurd ?_ hany
          exact List.any_eq_true.mpr ⟨none, hx, rfl⟩
  · exact fun q => ratSqrtP_clamp _ q

/-- Witness for C9: the fail-fast equivalence at a concrete non-finite input,
and the clamp identity. -/
theorem fail_fast_witness :
    ((∃ e, runChecked [none] 1 0 = Except.error e) ↔
      (1 : ℚ) ≤ 0 ∨ ∃ x ∈ ([none] : List RawCoord), x = none) ∧
    (∀ q : ℚ, ratSqrt q = ratSqrt (max 0 q)) :=
  fail_fast_iff_precondition_violated [none] 1 0

end Flatten

namespace Bench

theorem cmpQ_eq_gt_iff (a b : ℚ) : cmpQ a b = Ordering.gt ↔ b < a := by
  unfold cmpQ
  split_ifs with h1 h2
  · simp [lt_asymm h1]
  · simp [h2]
  · have hab : a = b := le_antisymm (le_of_not_lt h2) (le_of_not_lt h1)
    simp [hab]

theorem insertO_some (q : ℚ) (qs : List ℚ) :
    insertO (some q) (qs.map some) =
      some ((List.orderedInsert (· ≤ ·) q qs).map some) := by
  induction qs with
  | nil => simp [insertO, List.orderedInsert]
  | cons y ys ih =>
    simp only [List.map_cons, insertO, SortableFloat.partialCmp]
    rcases le_or_lt q y with h | h
    · rw [if_neg (by rw [cmpQ_eq_gt_iff]; exact not_lt.mpr h)]
      rw [List.orderedInsert, if_pos h]
      simp
    · rw [if_pos ((cmpQ_eq_gt_iff q y).mpr h)]
      rw [List.orderedInsert, if_neg (not_le.mpr h)]
      rw [ih]
      simp

theorem sortO_some (qs : List ℚ) :
    sortO (qs.map some) = some ((List.insertionSort (· ≤ ·) qs).map some) := by
  induction qs with
  | nil => simp [sortO, List.insertionSort]
  | cons q ys ih =>
    simp only [List.map_cons, sortO, ih, Option.bind_some]
    rw [List.insertionSort]
    exact insertO_some q (List.insertionSort (· ≤ ·) ys)

theorem all_some_eq_map (l : List F) (h : ∀ x ∈ l, x ≠ none) :
    l = (l.filterMap id).map some := by
  induction l with
  | nil => rfl
  | cons x xs ih =>
    obtain ⟨a, rfl⟩ := Option.ne_none_iff_exists'.mp (h x (by simp))
    simp only [List.filterMap_cons, id]
    rw [List.map_cons]
    exact congrArg _ (ih fun y hy => h y (by simp [hy]))

theorem getD_map_some (l : List ℚ) (i : ℕ) :
    (l.map some).getD i (some 0) = some (l.getD i 0) := by
  induction l generalizing i with
  | nil => simp [List.getD]
  | cons x xs ih =>
    cases i with
    | zero => simp
    | succ j => simp [List.getD_cons_succ, ih]

/-- C10: on every non-empty delta vector with no NaN, `Stats::from_deltas`
returns without panicking — the `unwrap` inside `SortableFloat`'s `Ord`
implementation (modelled by the `none` case of the comparison) is never
reached — and the returned median is the element at index `⌊len/2⌋` of the
input sorted in ascending order. -/
theorem from_deltas_median (l : List F) (h1 : l ≠ []) (h2 : ∀ x ∈ l, x ≠ none) :
    ∃ s, Stats.from_deltas l = some s ∧
      ∀ sorted : List ℚ, sorted.Perm (l.filterMap id) → sorted.Sorted (· ≤ ·) →
        s.median = some (sorted.getD (l.length / 2) 0) := by
  have hmap : l = (l.filterMap id).map some := all_some_eq_map l h2
  have hsort : sortO l =
      some ((List.insertionSort (· ≤ ·) (l.filterMap id)).map some) := by
    conv_lhs => rw [hmap]
    exact sortO_some _
  have hne : ¬ l.isEmpty = true := by simpa using h1
  unfold Stats.from_deltas
  rw [if_neg hne, hsort]
  refine ⟨_, rfl, ?_⟩
  intro sorted hperm hsorted
  simp only
  rw [getD_map_some]
  congr 1
  have heq : sorted = List.insertionSort (· ≤ ·) (l.filterMap id) :=
    List.eq_of_perm_of_sorted
      (hperm.trans (List.perm_insertionSort _ _).symm)
      hsorted (List.sorted_insertionSort _ _)
  rw [heq]

/-- Witness for C10: `from_deltas` on the vector `[3, 1, 2]` succeeds, and
its median is the middle element of the ascending sort. -/
theorem from_deltas_median_witness :
    ∃ s, Stats.from_deltas [some 3, some 1, some 2] = some s ∧
      ∀ sorted : List ℚ, sorted.Perm (([some 3, some 1, some 2] : List F).filterMap id) →
        sorted.Sorted (· ≤ ·) →
        s.median = some (sorted.getD (([some 3, some 1, some 2] : List F).length / 2) 0) :=
  from_deltas_median [some 3, some 1, some 2] (by simp) (by simp)

end Bench
